import Mathlib

/-!
Shallow embedding of the core of the `vlak_plzen4_eu` repository:

* the service-calendar engine of `czptt2gtfs/czptt2gtfs.py`
  (`Calendar.__init__`, `guess_weekdays`, `exceptions`, `load_calendar`),
* the single-record delay matcher of `get_direct_connection_cli.py`
  (`normalize_for_matching`, `extract_hhmm`, `hhmm_to_minutes`,
  `is_route_code_token`, `extract_route_codes`, `parse_train_identity`,
  `match_departure_to_delay_records`),
* the bulk vote resolver of
  `scripts/enrich_merged_with_official_train_numbers.py`
  (`choose_train_label`).

Calendar dates are modelled as proleptic-Gregorian ordinal day numbers
(ℕ, as returned by `datetime.date.toordinal`), so `date.weekday()` is
`(d + 6) % 7` (ordinal 1 is a Monday).  Strings are processed at the
character-list level; the regular expressions of the source are
implemented as explicit backtracking matchers over `List Char`.
-/

namespace Vlak

/-- Regex word character `\w` (ASCII repertoire, which is all this feed
uses): letters, digits or underscore.  Used for the `\b` boundary checks. -/
def isWordChar (c : Char) : Bool := c.isAlphanum || c == '_'

/-- Strips the diacritic of a Latin letter: models
`unicodedata.normalize("NFKD", text)` followed by dropping combining
characters, restricted to the Czech/Latin repertoire of the feed.
Characters outside the table are unchanged (ASCII NFKD-normalizes to
itself). -/
def stripDiacritic (c : Char) : Char :=
  match c with
  | 'á' => 'a' | 'č' => 'c' | 'ď' => 'd' | 'é' => 'e' | 'ě' => 'e'
  | 'í' => 'i' | 'ň' => 'n' | 'ó' => 'o' | 'ř' => 'r' | 'š' => 's'
  | 'ť' => 't' | 'ú' => 'u' | 'ů' => 'u' | 'ý' => 'y' | 'ž' => 'z'
  | 'Á' => 'A' | 'Č' => 'C' | 'Ď' => 'D' | 'É' => 'E' | 'Ě' => 'E'
  | 'Í' => 'I' | 'Ň' => 'N' | 'Ó' => 'O' | 'Ř' => 'R' | 'Š' => 'S'
  | 'Ť' => 'T' | 'Ú' => 'U' | 'Ů' => 'U' | 'Ý' => 'Y' | 'Ž' => 'Z'
  | other => other

/-- `str.strip()`: drop leading and trailing whitespace. -/
def pyStrip (l : List Char) : List Char :=
  ((l.dropWhile Char.isWhitespace).reverse.dropWhile Char.isWhitespace).reverse

/-- `normalize_for_matching` (get_direct_connection_cli.py:763-767):
`str(value or "")`, NFKD-normalize, drop combining characters, lower-case,
strip surrounding whitespace.  A `none` value models a missing/`None`
field and, like Python's `value or ""`, yields the empty string. -/
def normalize_for_matching (v : Option String) : String :=
  String.mk (pyStrip ((v.getD "").toList.map (fun c => (stripDiacritic c).toLower)))

/-- A character that survives the `re.split(r"[^a-z0-9]+", ...)` splitter:
lower-case ASCII letter or digit. -/
def isTokenChar (c : Char) : Bool := ('a' ≤ c && c ≤ 'z') || ('0' ≤ c && c ≤ '9')

/-- `is_route_code_token` (get_direct_connection_cli.py:788-793):
`re.fullmatch(r"[a-z0-9]{2,8}", token)` plus at least one letter and at
least one digit. -/
def is_route_code_token (t : List Char) : Bool :=
  decide (2 ≤ t.length) && decide (t.length ≤ 8) && t.all isTokenChar
    && t.any Char.isAlpha && t.any Char.isDigit

/-- Accumulator loop splitting a character list into its maximal runs of
token characters, exactly what `re.split(r"[^a-z0-9]+", normalized)`
produces after the `if token` filter drops the empty pieces. -/
def runsAux : List Char → List Char → List (List Char)
  | [], acc => if acc.isEmpty then [] else [acc.reverse]
  | c :: cs, acc =>
    if isTokenChar c then runsAux cs (c :: acc)
    else if acc.isEmpty then runsAux cs []
    else acc.reverse :: runsAux cs []

/-- The maximal runs of `[a-z0-9]` characters of a list, in order. -/
def runs (l : List Char) : List (List Char) := runsAux l []

/-- `extract_route_codes` (get_direct_connection_cli.py:796-799):
normalize, split on non-alphanumeric separators, keep the route-code
tokens.  The source returns a Python `set`; this embedding returns the
token list (possibly with duplicates) and every observation made of it by
the program — emptiness and whole-token intersection — is
duplication-insensitive. -/
def extract_route_codes (v : Option String) : List (List Char) :=
  (runs (normalize_for_matching v).toList).filter is_route_code_token

/-- Non-empty set intersection `a & b` of two token sets, as observed by
`match_departure_to_delay_records`. -/
def tokensIntersect (a b : List (List Char)) : Bool := a.any (fun t => b.contains t)

/-- Trailing `\b` of the time/identity regexes: the rest of the input
starts with a non-word character or is empty. -/
def boundaryAfter : List Char → Bool
  | [] => true
  | c :: _ => !isWordChar c

/-- Numeric value of an ASCII digit. -/
def digitVal (c : Char) : ℕ := c.toNat - '0'.toNat

/-- Two-digit-hour alternative of `\b([0-2]?\d:[0-5]\d)\b` at the current
position (the greedy `[0-2]?` tries this branch first). -/
def tryTwoDigitHHMM : List Char → Option (List Char)
  | c0 :: c1 :: c2 :: c3 :: c4 :: rest =>
    if ('0' ≤ c0 && c0 ≤ '2') && c1.isDigit && c2 == ':'
        && ('0' ≤ c3 && c3 ≤ '5') && c4.isDigit && boundaryAfter rest then
      some [c0, c1, c2, c3, c4]
    else none
  | _ => none

/-- One-digit-hour alternative of `\b([0-2]?\d:[0-5]\d)\b` (the `[0-2]?`
backtracks to the empty match). -/
def tryOneDigitHHMM : List Char → Option (List Char)
  | c0 :: c1 :: c2 :: c3 :: rest =>
    if c0.isDigit && c1 == ':' && ('0' ≤ c2 && c2 ≤ '5') && c3.isDigit
        && boundaryAfter rest then
      some [c0, c1, c2, c3]
    else none
  | _ => none

/-- Leftmost search of `re.search(r"\b([0-2]?\d:[0-5]\d)\b", ...)`: at
each position whose left context is a word boundary, try the greedy
alternative and then the backtracked one; otherwise advance.  `prev` is
the character to the left of the current position. -/
def searchHHMMAux : Option Char → List Char → Option (List Char)
  | _, [] => none
  | prev, c :: rest =>
    let atBoundary : Bool := match prev with | none => true | some p => !isWordChar p
    let here := if atBoundary then
        match tryTwoDigitHHMM (c :: rest) with
        | some m => some m
        | none => tryOneDigitHHMM (c :: rest)
      else none
    match here with
    | some m => some m
    | none => searchHHMMAux (some c) rest

/-- `extract_hhmm` (get_direct_connection_cli.py:771-777): first
`HH:MM`-shaped substring of the value, `none` for a missing value or no
match. -/
def extract_hhmm (v : Option String) : Option String :=
  match v with
  | none => none
  | some s => (searchHHMMAux none s.toList).map String.mk

/-- `hhmm_to_minutes` (get_direct_connection_cli.py:780-785): minutes
since midnight of the extracted `HH:MM` text (`int(hh) * 60 + int(mm)`). -/
def hhmm_to_minutes (v : Option String) : Option ℕ :=
  match extract_hhmm v with
  | none => none
  | some s =>
    match s.toList with
    | [a, b, _, d, e] => some ((digitVal a * 10 + digitVal b) * 60 + (digitVal d * 10 + digitVal e))
    | [a, _, d, e] => some (digitVal a * 60 + (digitVal d * 10 + digitVal e))
    | _ => none

/-- Integer value of an ASCII digit run (`int(...)`). -/
def natOfDigits (l : List Char) : ℤ :=
  ((l.foldl (fun n c => n * 10 + digitVal c) 0 : ℕ) : ℤ)

/-- `([0-9]{1,6})\b` with greedy backtracking: try `k` digits for `k`
from 6 down to 1, requiring the trailing word boundary. -/
def tryDigitsAt (l : List Char) : ℕ → Option (List Char)
  | 0 => none
  | k + 1 =>
    let t := l.take (k + 1)
    if t.length == k + 1 && t.all Char.isDigit && boundaryAfter (l.drop (k + 1)) then some t
    else tryDigitsAt l k

/-- `([A-Za-z]{1,6})\s*([0-9]{1,6})\b` at the current position with
greedy backtracking over the letter count.  `\s*` is resolved by dropping
all whitespace: a backtrack to fewer whitespace characters would leave a
whitespace character where a digit is required, so it never succeeds. -/
def tryLettersAt (l : List Char) : ℕ → Option (String × ℤ)
  | 0 => none
  | j + 1 =>
    let t := l.take (j + 1)
    if t.length == j + 1 && t.all Char.isAlpha then
      match tryDigitsAt ((l.drop (j + 1)).dropWhile Char.isWhitespace) 6 with
      | some ds => some (String.mk t, natOfDigits ds)
      | none => tryLettersAt l j
    else tryLettersAt l j

/-- Leftmost search of `re.search(r"\b([A-Za-z]{1,6})\s*([0-9]{1,6})\b", ...)`. -/
def searchTrainIdentity : Option Char → List Char → Option (String × ℤ)
  | _, [] => none
  | prev, c :: rest =>
    let atBoundary : Bool := match prev with | none => true | some p => !isWordChar p
    let here := if atBoundary then tryLettersAt (c :: rest) 6 else none
    match here with
    | some r => some r
    | none => searchTrainIdentity (some c) rest

/-- `parse_train_identity` (get_direct_connection_cli.py:884-890):
`(category, number)` parsed from a free-text label, `(None, None)` when
the label is missing or carries no identity. -/
def parse_train_identity (v : Option String) : Option String × Option ℤ :=
  match v with
  | none => (none, none)
  | some s =>
    match searchTrainIdentity none s.toList with
    | none => (none, none)
    | some (cat, num) => (some cat, some num)

/-- A scheduled departure handed to the matcher (the dictionary built by
`build_departure_records`); `none` models a missing/`None` field. -/
structure Departure where
  departure_time : Option String
  train_category : Option String
  train_number : Option ℤ
  route_short_name : Option String
deriving DecidableEq

/-- A delay-feed candidate record; `none` models a missing/`None` field. -/
structure DelayRecord where
  train_number : Option ℤ
  train_category : Option String
  scheduled_time_hhmm : Option String
  scheduled_actual_time : Option String
  status : Option String
  route_text : Option String
  route : Option String
deriving DecidableEq

/-- The decision dictionary returned by `match_departure_to_delay_records`. -/
structure MatchResult where
  status : String
  confidence : String
  match_reason : String
  record : Option DelayRecord
deriving DecidableEq

/-- `{"status": "unknown", "confidence": "none", "match_reason": "none",
"record": None}`. -/
def unknownMatch : MatchResult := ⟨"unknown", "none", "none", none⟩

/-- Python's falsy-coalescing `a or b` on optional strings (`None` and
`""` both fall through to `b`). -/
def pyOr (a b : Option String) : Option String :=
  match a with
  | some s => if s = "" then b else some s
  | none => b

/-- `record.get("status", "unknown")`: the candidate's own status, with
`"unknown"` for an absent field. -/
def statusOf (r : DelayRecord) : String := r.status.getD "unknown"

/-- Effective target category: `departure.get("train_category")` with the
`parse_train_identity(route_short_name)` fallback when `None`. -/
def depTrainCategory (dep : Departure) : Option String :=
  match dep.train_category with
  | some c => some c
  | none => (parse_train_identity dep.route_short_name).1

/-- Effective target train number: `departure.get("train_number")` with
the parsed fallback when `None`. -/
def depTrainNumber (dep : Departure) : Option ℤ :=
  match dep.train_number with
  | some n => some n
  | none => (parse_train_identity dep.route_short_name).2

/-- `dep_train_category_norm = normalize_for_matching(dep_train_category)
if dep_train_category else None` (truthiness: an empty category stays
`None`). -/
def depCategoryNorm (dep : Departure) : Option String :=
  match depTrainCategory dep with
  | some c => if c = "" then none else some (normalize_for_matching (some c))
  | none => none

/-- The strict filter of Stage 1: same train number and, when both the
normalized target category and the record category are truthy, equal
categories after normalization. -/
def strictPred (dep : Departure) (r : DelayRecord) : Bool :=
  match r.train_number, depTrainNumber dep with
  | some rn, some dn =>
    if rn == dn then
      match depCategoryNorm dep, r.train_category with
      | some dnorm, some rc =>
        if dnorm ≠ "" && rc ≠ "" then normalize_for_matching (some rc) == dnorm else true
      | _, _ => true
    else false
  | _, _ => false

/-- `strict_candidates` (get_direct_connection_cli.py:817-829): empty when
the target's train number is unknown. -/
def strictCandidates (dep : Departure) (records : List DelayRecord) : List DelayRecord :=
  match depTrainNumber dep with
  | none => []
  | some _ => records.filter (strictPred dep)

/-- Scheduled minutes of a candidate:
`hhmm_to_minutes(record.get("scheduled_time_hhmm") or
record.get("scheduled_actual_time"))`. -/
def recordMinutes (r : DelayRecord) : Option ℕ :=
  hhmm_to_minutes (pyOr r.scheduled_time_hhmm r.scheduled_actual_time)

/-- `abs(record_minutes - dep_minutes) <= 3` — the inclusive 3-minute
window; `false` when the candidate's time cannot be parsed. -/
def timeClose (depMin : ℕ) (r : DelayRecord) : Bool :=
  match recordMinutes r with
  | none => false
  | some m => decide (((m : ℤ) - (depMin : ℤ)).natAbs ≤ 3)

/-- The Stage-2 filter (get_direct_connection_cli.py:859-868): candidates
inside the 3-minute window whose token set meets the target's. -/
def routeCandidates (depMin : ℕ) (depCodes : List (List Char)) (records : List DelayRecord) :
    List DelayRecord :=
  records.filter (fun r =>
    timeClose depMin r && tokensIntersect depCodes (extract_route_codes (pyOr r.route_text r.route)))

/-- `match_departure_to_delay_records` (get_direct_connection_cli.py:803-882). -/
def match_departure_to_delay_records (dep : Departure) (records : List DelayRecord) :
    MatchResult :=
  match hhmm_to_minutes dep.departure_time with
  | none => unknownMatch
  | some depMin =>
    match strictCandidates dep records with
    | [r] => ⟨statusOf r, "high", "train_number", some r⟩
    | [] =>
      let depCodes := extract_route_codes dep.route_short_name
      if depCodes.isEmpty then unknownMatch
      else
        match routeCandidates depMin depCodes records with
        | [r] => ⟨statusOf r, "medium", "route_code", some r⟩
        | _ => unknownMatch
    | r1 :: r2 :: rest =>
      match (r1 :: r2 :: rest).filter (timeClose depMin) with
      | [r] => ⟨statusOf r, "high", "train_number", some r⟩
      | _ => unknownMatch

/-- Stable insertion of a vote pair into a descending-by-count list,
placing the pair before the first strictly smaller count. -/
def insertDesc (p : String × ℕ) : List (String × ℕ) → List (String × ℕ)
  | [] => [p]
  | q :: rest => if q.2 ≤ p.2 then p :: q :: rest else q :: insertDesc p rest

/-- Stable descending-by-count sort. -/
def sortDesc : List (String × ℕ) → List (String × ℕ)
  | [] => []
  | p :: rest => insertDesc p (sortDesc rest)

/-- `Counter.most_common()`: the vote pairs sorted by count, largest
first; pairs with equal counts keep their insertion order.  A `Counter`
is modelled as its insertion-ordered item list; Python's stable
descending Timsort and this stable insertion sort agree extensionally. -/
def most_common (votes : List (String × ℕ)) : List (String × ℕ) := sortDesc votes

/-- The decision dictionary returned by `choose_train_label`.  `ratio` is
kept as an exact rational (the source computes a float and rounds the
reported copy to 4 decimals). -/
structure ChooseResult where
  status : String
  reason : String
  label : Option String
  top_label : Option String
  top_votes : ℕ
  second_votes : ℕ
  total_votes : ℕ
  ratio : ℚ
  candidates : List (String × ℕ)
deriving DecidableEq

/-- `choose_train_label`
(scripts/enrich_merged_with_official_train_numbers.py:97-139).  The
source compares `top_votes / total_votes < 0.60` in IEEE doubles; this
embedding compares the exact rational against `3/5`, which agrees with
the double comparison throughout the feasible vote range (at the only
boundary in question, `3/5`, the double quotient equals the double
literal `0.60`, so both treat the boundary as inclusive). -/
def choose_train_label (votes : List (String × ℕ)) : ChooseResult :=
  if votes = [] then ⟨"unmatched", "no_candidates", none, none, 0, 0, 0, 0, []⟩
  else
    let ordered := most_common votes
    let top := ordered.headD ("", 0)
    let secondVotes := match ordered with | _ :: s :: _ => s.2 | _ => 0
    let totalVotes := (votes.map Prod.snd).sum
    let ratio : ℚ := if totalVotes = 0 then 0 else (top.2 : ℚ) / (totalVotes : ℚ)
    if top.2 < 2 then
      ⟨"ambiguous", "low_support", none, some top.1, top.2, secondVotes, totalVotes, ratio, ordered⟩
    else if top.2 ≤ secondVotes then
      ⟨"ambiguous", "tie", none, some top.1, top.2, secondVotes, totalVotes, ratio, ordered⟩
    else if ratio < 3 / 5 then
      ⟨"ambiguous", "low_ratio", none, some top.1, top.2, secondVotes, totalVotes, ratio, ordered⟩
    else
      ⟨"matched", "matched", some top.1, some top.1, top.2, secondVotes, totalVotes, ratio, ordered⟩

/-- `EXC_ADD` (czptt2gtfs.py:16): the date is active although its weekday
is not regular. -/
def EXC_ADD : ℕ := 1

/-- `EXC_REMOVE` (czptt2gtfs.py:17): the date is inactive although its
weekday is regular. -/
def EXC_REMOVE : ℕ := 2

/-- The `Calendar` object of czptt2gtfs.py.  Dates are ordinal day
numbers. -/
structure Calendar where
  start : ℕ
  endDate : ℕ
  dates : Finset ℕ
  bitmap : List Char
deriving DecidableEq

/-- The active-date set built by the `for offset, active in
enumerate(bitmap)` loop of `Calendar.__init__`: insert `start + offset`
for every `'1'` character. -/
def bitmapDates (bitmap : List Char) (start : ℕ) : Finset ℕ :=
  bitmap.enum.foldl (fun s p => if p.2 = '1' then insert (start + p.1) s else s) ∅

/-- `Calendar.__init__` (czptt2gtfs.py:49-76) on already-parsed inputs:
the bitmap text, the parsed validity start date and the parsed optional
`EndDateTime`.  (ISO/`T00:00:00` parsing of the date literals is the
external collaborator the spec scopes out; a malformed literal simply
never reaches this point.)  When the bitmap is exactly `"1"` no end date
is consulted; otherwise a missing end date fails (the source dereferences
a missing element) and an end date other than `start + (len(bitmap) - 1)`
days raises `Nesedí EndDateTime`.  An empty bitmap always fails: its
date loop never runs, so the source's `self.end = start +
timedelta(days=offset)` hits an unbound `offset`. -/
def mkCalendar (bitmap : List Char) (start : ℕ) (endOpt : Option ℕ) : Except String Calendar :=
  if bitmap = [] then .error "empty bitmap"
  else
    let built : Calendar := ⟨start, start + (bitmap.length - 1), bitmapDates bitmap start, bitmap⟩
    if bitmap = ['1'] then .ok built
    else
      match endOpt with
      | none => .error "missing EndDateTime"
      | some e => if start + (bitmap.length - 1) = e then .ok built else .error "Nesedi EndDateTime"

/-- `Calendar.service_interval`: every date from `start` to `end`
inclusive, ascending. -/
def Calendar.interval (cal : Calendar) : List ℕ :=
  (List.range (cal.endDate + 1 - cal.start)).map (fun i => cal.start + i)

/-- `datetime.date.weekday()` on an ordinal day number: 0 = Monday .. 6 =
Sunday (ordinal 1, January 1 of year 1, is a Monday). -/
def weekday (d : ℕ) : ℕ := (d + 6) % 7

/-- `Calendar.guess_weekdays` (czptt2gtfs.py:84-93): a weekday is regular
iff it is active strictly more often than inactive over the validity
window. -/
def Calendar.guess_weekdays (cal : Calendar) : Finset ℕ :=
  (Finset.range 7).filter (fun wd =>
    (cal.interval.filter (fun d => decide (d ∈ cal.dates) && weekday d == wd)).length >
    (cal.interval.filter (fun d => !decide (d ∈ cal.dates) && weekday d == wd)).length)

/-- `Calendar.exceptions` (czptt2gtfs.py:95-105) for an explicit regular
weekday set: every date of the window whose activity disagrees with the
pattern, ascending, paired with `EXC_ADD` when active and `EXC_REMOVE`
when inactive. -/
def Calendar.exceptions (cal : Calendar) (regular_wd : Finset ℕ) : List (ℕ × ℕ) :=
  cal.interval.filterMap (fun d =>
    if (d ∈ cal.dates) ≠ (weekday d ∈ regular_wd) then
      some (d, if d ∈ cal.dates then EXC_ADD else EXC_REMOVE)
    else none)

/-- `Calendar.exceptions` with the default `regular_wd=None` argument:
the guessed weekday pattern is used. -/
def Calendar.exceptionsGuessed (cal : Calendar) : List (ℕ × ℕ) :=
  cal.exceptions cal.guess_weekdays

/-- A registered calendar instance: the calendar value plus a fresh
instance identifier modelling Python object identity. -/
structure RegCal where
  cal : Calendar
  iid : ℕ
deriving DecidableEq

/-- The `calendars` registry dictionary keyed by the frozen active-date
set, plus the fresh-identity counter. -/
structure Registry where
  nextId : ℕ
  table : List (Finset ℕ × RegCal)
deriving DecidableEq

/-- Dictionary lookup in the registry table. -/
def lookupReg : List (Finset ℕ × RegCal) → Finset ℕ → Option RegCal
  | [], _ => none
  | (k, v) :: rest, key => if k = key then some v else lookupReg rest key

/-- The already-parsed fields of one `cal_elem`. -/
structure CalInput where
  bitmap : List Char
  start : ℕ
  endOpt : Option ℕ
deriving DecidableEq

/-- `load_calendar` (czptt2gtfs.py:108-116): build the calendar, return
the registered instance with the same active-date set when one exists,
otherwise register the new instance.  A failing construction yields
`none` (the caller skips that trip variant). -/
def load_calendar (inp : CalInput) (reg : Registry) : Option RegCal × Registry :=
  match mkCalendar inp.bitmap inp.start inp.endOpt with
  | .error _ => (none, reg)
  | .ok cal =>
    match lookupReg reg.table cal.dates with
    | some rc => (some rc, reg)
    | none => (some ⟨cal, reg.nextId⟩, ⟨reg.nextId + 1, (cal.dates, ⟨cal, reg.nextId⟩) :: reg.table⟩)

/-- One conversion run: thread the registry through a sequence of
calendar constructions, collecting each returned instance. -/
def runCalendars : List CalInput → Registry → List (Option RegCal) × Registry
  | [], reg => ([], reg)
  | i :: rest, reg =>
    let step := load_calendar i reg
    let next := runCalendars rest step.2
    (step.1 :: next.1, next.2)

/-- The registry at the start of a conversion run. -/
def emptyRegistry : Registry := ⟨0, []⟩

/-! Specification-level quantities for the vote resolver, written per the
spec's words: `top` is the highest vote count, `second` the next-highest
count (with the top occurrence removed; `0` when there is only one
candidate), `total` the sum of all counts. -/

/-- Descending order on vote pairs: the right count is at most the left. -/
def voteGe (a b : String × ℕ) : Prop := b.2 ≤ a.2

/-- The highest vote count of a counter. -/
def topCount (votes : List (String × ℕ)) : ℕ := (votes.map Prod.snd).foldr max 0

/-- The next-highest vote count: the maximum after removing one
occurrence of the top count. -/
def secondCount (votes : List (String × ℕ)) : ℕ :=
  ((votes.map Prod.snd).erase (topCount votes)).foldr max 0

/-- The total number of votes. -/
def totalCount (votes : List (String × ℕ)) : ℕ := (votes.map Prod.snd).sum

/-! ### Lemmas about the stable descending sort -/

theorem insertDesc_perm (p : String × ℕ) (l : List (String × ℕ)) :
    (insertDesc p l).Perm (p :: l) := by
  induction l with
  | nil => simp [insertDesc]
  | cons q rest ih =>
    rw [insertDesc]
    split
    · exact List.Perm.refl _
    · exact (ih.cons q).trans (List.Perm.swap p q rest)

theorem sortDesc_perm (l : List (String × ℕ)) : (sortDesc l).Perm l := by
  induction l with
  | nil => exact List.Perm.refl _
  | cons p rest ih => exact (insertDesc_perm p (sortDesc rest)).trans (ih.cons p)

theorem insertDesc_sorted (p : String × ℕ) (l : List (String × ℕ))
    (h : l.Pairwise voteGe) : (insertDesc p l).Pairwise voteGe := by
  induction l with
  | nil => simp [insertDesc, List.Pairwise]
  | cons q rest ih =>
    rw [insertDesc]
    rcases List.pairwise_cons.mp h with ⟨hq, hrest⟩
    split
    · refine List.pairwise_cons.mpr ⟨?_, h⟩
      intro x hx
      rcases List.mem_cons.mp hx with rfl | hx2
      · assumption
      · exact le_trans (hq x hx2) (by assumption)
    · refine List.pairwise_cons.mpr ⟨?_, ih hrest⟩
      intro x hx
      rcases List.mem_cons.mp ((insertDesc_perm p rest).mem_iff.mp hx) with h2 | h2
      · subst h2
        exact le_of_not_le (by assumption)
      · exact hq x h2

theorem sortDesc_sorted (l : List (String × ℕ)) : (sortDesc l).Pairwise voteGe := by
  induction l with
  | nil => exact List.Pairwise.nil
  | cons p rest ih => exact insertDesc_sorted p (sortDesc rest) ih

theorem le_foldr_max (xs : List ℕ) (x : ℕ) (hx : x ∈ xs) : x ≤ xs.foldr max 0 := by
  induction xs with
  | nil => cases hx
  | cons a t ih =>
    rcases List.mem_cons.mp hx with rfl | h
    · exact le_max_left _ _
    · exact le_trans (ih h) (le_max_right _ _)

theorem foldr_max_le (xs : List ℕ) (c : ℕ) (h : ∀ x ∈ xs, x ≤ c) : xs.foldr max 0 ≤ c := by
  induction xs with
  | nil => exact Nat.zero_le c
  | cons a t ih =>
    exact max_le (h a (List.mem_cons_self a t)) (ih fun x hx => h x (List.mem_cons_of_mem a hx))

theorem foldr_max_perm (xs ys : List ℕ) (h : xs.Perm ys) : xs.foldr max 0 = ys.foldr max 0 :=
  le_antisymm (foldr_max_le _ _ fun _ hx => le_foldr_max _ _ (h.mem_iff.mp hx))
    (foldr_max_le _ _ fun _ hx => le_foldr_max _ _ (h.mem_iff.mpr hx))

/-- Head-and-tail structure of `most_common`: the head carries the
highest count, the tail carries the remaining counts. -/
theorem most_common_structure (votes : List (String × ℕ)) (hne : votes ≠ []) :
    ∃ t rest, most_common votes = t :: rest ∧ t ∈ votes ∧ t.2 = topCount votes ∧
      ((votes.map Prod.snd).erase (topCount votes)).Perm (rest.map Prod.snd) ∧
      (t :: rest).Pairwise voteGe := by
  have hp : (most_common votes).Perm votes := sortDesc_perm votes
  cases hmc : most_common votes with
  | nil =>
    exact absurd (List.length_eq_zero.mp (hmc ▸ hp).length_eq.symm) hne
  | cons t rest =>
    have hp2 : (t :: rest).Perm votes := hmc ▸ hp
    have hs : (t :: rest).Pairwise voteGe := hmc ▸ sortDesc_sorted votes
    have htmem : t ∈ votes := hp2.mem_iff.mp (List.mem_cons_self t rest)
    rcases List.pairwise_cons.mp hs with ⟨hhead, _⟩
    have htop : t.2 = topCount votes := by
      refine le_antisymm (le_foldr_max _ _ (List.mem_map_of_mem Prod.snd htmem)) ?_
      refine foldr_max_le _ _ ?_
      intro x hx
      rcases List.mem_map.mp hx with ⟨b, hb, rfl⟩
      rcases List.mem_cons.mp (hp2.symm.mem_iff.mp hb) with rfl | hb2
      · exact le_refl _
      · exact hhead b hb2
    refine ⟨t, rest, rfl, htmem, htop, ?_, hs⟩
    have hmap : (votes.map Prod.snd).Perm (t.2 :: rest.map Prod.snd) := hp2.symm.map Prod.snd
    have := hmap.erase (topCount votes)
    rwa [htop, List.erase_cons_head] at this

/-- The second-highest count is the count of the second sorted element
(`0` when there is only one candidate). -/
theorem secondCount_eq (votes : List (String × ℕ)) (t : String × ℕ)
    (rest : List (String × ℕ)) (hmc : most_common votes = t :: rest)
    (herase : ((votes.map Prod.snd).erase (topCount votes)).Perm (rest.map Prod.snd))
    (hs : (t :: rest).Pairwise voteGe) :
    secondCount votes = (rest.headD ("", 0)).2 := by
  rw [secondCount, foldr_max_perm _ _ herase]
  cases rest with
  | nil => rfl
  | cons s rest2 =>
    rcases List.pairwise_cons.mp (List.pairwise_cons.mp hs).2 with ⟨hs2, _⟩
    simp only [List.map_cons, List.foldr_cons, List.headD_cons]
    refine le_antisymm (max_le (le_refl _) (foldr_max_le _ _ ?_)) (le_max_left _ _)
    intro x hx
    rcases List.mem_map.mp hx with ⟨b, hb, rfl⟩
    exact hs2 b hb

/-- Positivity of the total for a counter as the program produces it. -/
theorem totalCount_pos (votes : List (String × ℕ)) (hne : votes ≠ [])
    (hpos : ∀ p ∈ votes, 1 ≤ p.2) : 0 < totalCount votes := by
  cases votes with
  | nil => exact absurd rfl hne
  | cons v vs =>
    have := hpos v (List.mem_cons_self v vs)
    simp only [totalCount, List.map_cons, List.sum_cons]
    omega

/-- The float comparison `top / total < 0.60` of the source, as an exact
rational inequality over the counts. -/
theorem ratio_lt_iff (top total : ℕ) (h : 0 < total) :
    ((top : ℚ) / (total : ℚ) < 3 / 5) ↔ 5 * top < 3 * total := by
  rw [div_lt_div_iff₀ (by exact_mod_cast h) (by norm_num : (0 : ℚ) < 5)]
  rw [show ((top : ℚ) * 5 = ((5 * top : ℕ) : ℚ)) by push_cast; ring]
  rw [show ((3 : ℚ) * (total : ℚ) = ((3 * total : ℕ) : ℚ)) by push_cast; ring]
  exact Nat.cast_lt

/-- Evaluation of `choose_train_label` once the sorted counter is known. -/
theorem choose_eval (votes : List (String × ℕ)) (t : String × ℕ)
    (rest : List (String × ℕ)) (hne : votes ≠ []) (hmc : most_common votes = t :: rest) :
    choose_train_label votes =
      (let secondV := (rest.headD ("", 0)).2
       let total := (votes.map Prod.snd).sum
       let ratio : ℚ := if total = 0 then 0 else (t.2 : ℚ) / (total : ℚ)
       if t.2 < 2 then
         ⟨"ambiguous", "low_support", none, some t.1, t.2, secondV, total, ratio, t :: rest⟩
       else if t.2 ≤ secondV then
         ⟨"ambiguous", "tie", none, some t.1, t.2, secondV, total, ratio, t :: rest⟩
       else if ratio < 3 / 5 then
         ⟨"ambiguous", "low_ratio", none, some t.1, t.2, secondV, total, ratio, t :: rest⟩
       else
         ⟨"matched", "matched", some t.1, some t.1, t.2, secondV, total, ratio, t :: rest⟩) := by
  rw [choose_train_label, if_neg hne, hmc]
  cases rest <;> rfl

/-- The threshold cascade of `choose_train_label`, stated against the
specification-level quantities `topCount`, `secondCount` and
`totalCount`. -/
theorem choose_cascade (votes : List (String × ℕ))
    (hpos : ∀ p ∈ votes, 1 ≤ p.2) :
    (votes = [] →
      choose_train_label votes = ⟨"unmatched", "no_candidates", none, none, 0, 0, 0, 0, []⟩) ∧
    (votes ≠ [] →
      (choose_train_label votes).top_votes = topCount votes ∧
      (choose_train_label votes).second_votes = secondCount votes ∧
      (choose_train_label votes).total_votes = totalCount votes ∧
      (choose_train_label votes).ratio = (topCount votes : ℚ) / (totalCount votes : ℚ) ∧
      (topCount votes < 2 →
        (choose_train_label votes).status = "ambiguous" ∧
        (choose_train_label votes).reason = "low_support") ∧
      (2 ≤ topCount votes → topCount votes ≤ secondCount votes →
        (choose_train_label votes).status = "ambiguous" ∧
        (choose_train_label votes).reason = "tie") ∧
      (2 ≤ topCount votes → secondCount votes < topCount votes →
          5 * topCount votes < 3 * totalCount votes →
        (choose_train_label votes).status = "ambiguous" ∧
        (choose_train_label votes).reason = "low_ratio") ∧
      (2 ≤ topCount votes → secondCount votes < topCount votes →
          3 * totalCount votes ≤ 5 * topCount votes →
        (choose_train_label votes).status = "matched" ∧
        ∃ l, (choose_train_label votes).label = some l ∧ (l, topCount votes) ∈ votes)) := by
  constructor
  · intro h
    subst h
    rfl
  · intro hne
    obtain ⟨t, rest, hmc, htmem, htop, herase, hs⟩ := most_common_structure votes hne
    have hsec : secondCount votes = (rest.headD ("", 0)).2 :=
      secondCount_eq votes t rest hmc herase hs
    have htot : 0 < totalCount votes := totalCount_pos votes hne hpos
    have htotq : ¬((votes.map Prod.snd).sum = 0) := by
      intro h
      rw [totalCount] at htot
      omega
    rw [choose_eval votes t rest hne hmc]
    simp only []
    rw [if_neg htotq]
    have hratio : ((t.2 : ℚ) / (((votes.map Prod.snd).sum : ℕ) : ℚ) < 3 / 5) ↔
        5 * topCount votes < 3 * totalCount votes := by
      rw [htop]
      exact ratio_lt_iff (topCount votes) (totalCount votes) htot
    split_ifs with h1 h2 h3
    · refine ⟨htop, hsec.symm, rfl, ?_, ?_, ?_, ?_, ?_⟩
      · rw [htop]
        rfl
      · exact fun _ => ⟨rfl, rfl⟩
      · intro hge _
        rw [htop] at h1
        omega
      · intro hge _ _
        rw [htop] at h1
        omega
      · intro hge _ _
        rw [htop] at h1
        omega
    · refine ⟨htop, hsec.symm, rfl, ?_, ?_, ?_, ?_, ?_⟩
      · rw [htop]
        rfl
      · intro hlt
        rw [htop] at h1
        omega
      · exact fun _ _ => ⟨rfl, rfl⟩
      · intro _ hlt _
        rw [htop, ← hsec] at h2
        omega
      · intro _ hlt _
        rw [htop, ← hsec] at h2
        omega
    · refine ⟨htop, hsec.symm, rfl, ?_, ?_, ?_, ?_, ?_⟩
      · rw [htop]
        rfl
      · intro hlt
        rw [htop] at h1
        omega
      · intro _ hle
        rw [htop, ← hsec] at h2
        omega
      · exact fun _ _ _ => ⟨rfl, rfl⟩
      · intro _ _ hge
        rw [hratio] at h3
        omega
    · refine ⟨htop, hsec.symm, rfl, ?_, ?_, ?_, ?_, ?_⟩
      · rw [htop]
        rfl
      · intro hlt
        rw [htop] at h1
        omega
      · intro _ hle
        rw [htop, ← hsec] at h2
        omega
      · intro _ _ hlt
        rw [hratio] at h3
        omega
      · intro _ _ _
        refine ⟨rfl, t.1, rfl, ?_⟩
        rw [← htop]
        exact htmem

/-- The spec example `{A:3, B:2}`: ratio exactly 3/5 is matched. -/
theorem choose_example_boundary :
    (choose_train_label [("A", 3), ("B", 2)]).status = "matched" := by
  rw [choose_eval [("A", 3), ("B", 2)] ("A", 3) [("B", 2)] (by simp) rfl]
  norm_num

/-- The spec example `{A:5, B:2}`: clear majority is matched. -/
theorem choose_example_majority :
    (choose_train_label [("A", 5), ("B", 2)]).status = "matched" := by
  rw [choose_eval [("A", 5), ("B", 2)] ("A", 5) [("B", 2)] (by simp) rfl]
  norm_num

/-- The spec example `{A:1}`: a single vote is low support. -/
theorem choose_example_low_support :
    (choose_train_label [("A", 1)]).status = "ambiguous" ∧
    (choose_train_label [("A", 1)]).reason = "low_support" := by
  rw [choose_eval [("A", 1)] ("A", 1) [] (by simp) rfl]
  norm_num

/-- The spec example `{A:2, B:2}`: equal counts tie. -/
theorem choose_example_tie :
    (choose_train_label [("A", 2), ("B", 2)]).status = "ambiguous" ∧
    (choose_train_label [("A", 2), ("B", 2)]).reason = "tie" := by
  rw [choose_eval [("A", 2), ("B", 2)] ("A", 2) [("B", 2)] (by simp) rfl]
  norm_num

/-- C1: for every vote counter (insertion-ordered, distinct labels,
positive counts), the bulk resolver `choose_train_label` decides by the
threshold cascade: an empty counter is `unmatched`/`no_candidates`;
otherwise with `top` the highest count, `second` the next-highest (0 for
a single candidate) and `total` the sum, `top < 2` is
`ambiguous`/`low_support`, `second ≥ top` is `ambiguous`/`tie`,
`top/total < 0.60` is `ambiguous`/`low_ratio`, and otherwise the status
is `matched` with the label holding `top` votes; the `0.60` boundary is
inclusive (`{A:3, B:2}` and `{A:5, B:2}` are matched, `{A:1}` is
`low_support`, `{A:2, B:2}` is a tie). -/
theorem choose_train_label_thresholds :
    (∀ votes : List (String × ℕ), (votes.map Prod.fst).Nodup → (∀ p ∈ votes, 1 ≤ p.2) →
      (votes = [] →
        choose_train_label votes = ⟨"unmatched", "no_candidates", none, none, 0, 0, 0, 0, []⟩) ∧
      (votes ≠ [] →
        (choose_train_label votes).top_votes = topCount votes ∧
        (choose_train_label votes).second_votes = secondCount votes ∧
        (choose_train_label votes).total_votes = totalCount votes ∧
        (choose_train_label votes).ratio = (topCount votes : ℚ) / (totalCount votes : ℚ) ∧
        (topCount votes < 2 →
          (choose_train_label votes).status = "ambiguous" ∧
          (choose_train_label votes).reason = "low_support") ∧
        (2 ≤ topCount votes → topCount votes ≤ secondCount votes →
          (choose_train_label votes).status = "ambiguous" ∧
          (choose_train_label votes).reason = "tie") ∧
        (2 ≤ topCount votes → secondCount votes < topCount votes →
            5 * topCount votes < 3 * totalCount votes →
          (choose_train_label votes).status = "ambiguous" ∧
          (choose_train_label votes).reason = "low_ratio") ∧
        (2 ≤ topCount votes → secondCount votes < topCount votes →
            3 * totalCount votes ≤ 5 * topCount votes →
          (choose_train_label votes).status = "matched" ∧
          ∃ l, (choose_train_label votes).label = some l ∧ (l, topCount votes) ∈ votes))) ∧
    (choose_train_label [("A", 3), ("B", 2)]).status = "matched" ∧
    (choose_train_label [("A", 5), ("B", 2)]).status = "matched" ∧
    (choose_train_label [("A", 1)]).status = "ambiguous" ∧
    (choose_train_label [("A", 1)]).reason = "low_support" ∧
    (choose_train_label [("A", 2), ("B", 2)]).status = "ambiguous" ∧
    (choose_train_label [("A", 2), ("B", 2)]).reason = "tie" :=
  ⟨fun votes _hkeys hpos => choose_cascade votes hpos,
   choose_example_boundary, choose_example_majority,
   choose_example_low_support.1, choose_example_low_support.2,
   choose_example_tie.1, choose_example_tie.2⟩

/-- Witness for C1: the counter `{Os 7806: 5, Sp 1706: 2}` instantiates
the cascade and lands in the matched branch with the top label. -/
theorem choose_train_label_thresholds_witness :
    (choose_train_label [("Os 7806", 5), ("Sp 1706", 2)]).status = "matched" ∧
    (choose_train_label [("Os 7806", 5), ("Sp 1706", 2)]).label = some "Os 7806" := by
  have h := (choose_train_label_thresholds.1 [("Os 7806", 5), ("Sp 1706", 2)]
    (by decide) (by decide)).2 (by decide)
  obtain ⟨-, -, -, -, -, -, -, hm⟩ := h
  obtain ⟨hst, l, hl, hmem⟩ := hm (by decide) (by decide) (by decide)
  have htc : topCount [("Os 7806", 5), ("Sp 1706", 2)] = 5 := rfl
  rw [htc] at hmem
  have hl2 : l = "Os 7806" := by
    rcases List.mem_cons.mp hmem with h1 | h1
    · exact (Prod.ext_iff.mp h1).1
    · rcases List.mem_cons.mp h1 with h2 | h2
      · have h5 : (5 : ℕ) = 2 := (Prod.ext_iff.mp h2).2
        exact absurd h5 (by decide)
      · cases h2
  exact ⟨hst, hl2 ▸ hl⟩

/-! ### The single-record match resolver -/

/-- The 3-minute-window test, in specification form. -/
theorem timeClose_iff (depMin : ℕ) (r : DelayRecord) :
    timeClose depMin r = true ↔
      ∃ m, recordMinutes r = some m ∧ ((m : ℤ) - (depMin : ℤ)).natAbs ≤ 3 := by
  rw [timeClose]
  cases h : recordMinutes r with
  | none => simp
  | some m => simp

/-- The token-set intersection test, in specification form. -/
theorem tokensIntersect_iff (a b : List (List Char)) :
    tokensIntersect a b = true ↔ ∃ t, t ∈ a ∧ t ∈ b := by
  rw [tokensIntersect]
  simp [List.any_eq_true]

/-- C2: a uniquely matching strict candidate (same train number, and
equal categories after normalization when both are present — that is
what `strictCandidates` filters on) is returned immediately at
confidence `high`, reason `train_number`, with the candidate's own
status, with no condition on how far apart the scheduled times are. -/
theorem match_single_strict_unique (dep : Departure) (records : List DelayRecord)
    (r : DelayRecord) (depMin : ℕ)
    (htime : hhmm_to_minutes dep.departure_time = some depMin)
    (_hnum : (depTrainNumber dep).isSome = true)
    (hstrict : strictCandidates dep records = [r]) :
    match_departure_to_delay_records dep records =
      ⟨statusOf r, "high", "train_number", some r⟩ := by
  simp only [match_departure_to_delay_records, htime, hstrict]

/-- Witness for C2: target `Os 27324` scheduled 12:50 against a single
candidate `Os 27324` scheduled 12:41 (nine minutes away) is
`high`/`train_number` with the candidate's status. -/
theorem match_single_strict_unique_witness :
    match_departure_to_delay_records
        ⟨some "12:50:00", some "Os", some 27324, some "Os 27324"⟩
        [⟨some 27324, some "Os", some "12:41", none, some "delayed",
          some "P13 Plzen - Radnice", none⟩] =
      ⟨"delayed", "high", "train_number",
        some ⟨some 27324, some "Os", some "12:41", none, some "delayed",
          some "P13 Plzen - Radnice", none⟩⟩ :=
  match_single_strict_unique
    ⟨some "12:50:00", some "Os", some 27324, some "Os 27324"⟩
    [⟨some 27324, some "Os", some "12:41", none, some "delayed",
      some "P13 Plzen - Radnice", none⟩]
    ⟨some 27324, some "Os", some "12:41", none, some "delayed",
      some "P13 Plzen - Radnice", none⟩
    770 (by decide) (by decide) (by decide)

/-- C3: with two or more strict candidates the resolver narrows to the
inclusive 3-minute window; a unique survivor is returned at
`high`/`train_number`, every other outcome is the unknown decision — the
route-code stage is never entered. -/
theorem match_single_strict_ambiguous (dep : Departure) (records : List DelayRecord)
    (depMin : ℕ)
    (htime : hhmm_to_minutes dep.departure_time = some depMin)
    (hmulti : 2 ≤ (strictCandidates dep records).length) :
    (∀ r, r ∈ (strictCandidates dep records).filter (timeClose depMin) ↔
        r ∈ strictCandidates dep records ∧
        ∃ m, recordMinutes r = some m ∧ ((m : ℤ) - (depMin : ℤ)).natAbs ≤ 3) ∧
    (∀ r, (strictCandidates dep records).filter (timeClose depMin) = [r] →
      match_departure_to_delay_records dep records =
        ⟨statusOf r, "high", "train_number", some r⟩) ∧
    (((strictCandidates dep records).filter (timeClose depMin)).length ≠ 1 →
      match_departure_to_delay_records dep records = unknownMatch) := by
  obtain ⟨a, b, t, heq⟩ : ∃ a b t, strictCandidates dep records = a :: b :: t := by
    cases hsc : strictCandidates dep records with
    | nil => rw [hsc] at hmulti; simp at hmulti
    | cons a rest =>
      cases rest with
      | nil => rw [hsc] at hmulti; simp at hmulti
      | cons b t => exact ⟨a, b, t, rfl⟩
  refine ⟨?_, ?_, ?_⟩
  · intro r
    rw [List.mem_filter, timeClose_iff]
  · intro r hfil
    rw [heq] at hfil
    simp only [match_departure_to_delay_records, htime, heq, hfil]
  · intro hlen
    rw [heq] at hlen
    simp only [match_departure_to_delay_records, htime, heq]
    cases hfil : (a :: b :: t).filter (timeClose depMin) with
    | nil => simp only [hfil]
    | cons x xs =>
      cases xs with
      | nil => rw [hfil] at hlen; simp at hlen
      | cons y ys => simp only [hfil]

/-- Witness for C3: target `Os 7806` at 10:14 against two `Os 7806`
candidates at 10:13 and 10:15 (both inside the window) is the unknown
decision, and both candidates pass the window test. -/
theorem match_single_strict_ambiguous_witness :
    match_departure_to_delay_records
        ⟨some "10:14:00", some "Os", some 7806, some "P2/S70"⟩
        [⟨some 7806, some "Os", some "10:13", none, some "on_time",
          some "P2/S70 Plzen - Rokycany", none⟩,
         ⟨some 7806, some "Os", some "10:15", none, some "delayed",
          some "P2/S70 Plzen - Rokycany", none⟩] = unknownMatch :=
  (match_single_strict_ambiguous
    ⟨some "10:14:00", some "Os", some 7806, some "P2/S70"⟩
    [⟨some 7806, some "Os", some "10:13", none, some "on_time",
      some "P2/S70 Plzen - Rokycany", none⟩,
     ⟨some 7806, some "Os", some "10:15", none, some "delayed",
      some "P2/S70 Plzen - Rokycany", none⟩]
    614 (by decide) (by decide)).2.2 (by decide)

/-- C4: with no strict candidate and a non-empty target token set, the
route-code stage keeps exactly the candidates inside the inclusive
3-minute window whose token set meets the target's; a unique survivor is
`medium`/`route_code` with the candidate's status, any other count gives
the unknown decision. -/
theorem match_single_route_fallback (dep : Departure) (records : List DelayRecord)
    (depMin : ℕ)
    (htime : hhmm_to_minutes dep.departure_time = some depMin)
    (hstrict : strictCandidates dep records = [])
    (hcodes : extract_route_codes dep.route_short_name ≠ []) :
    (∀ r, r ∈ routeCandidates depMin (extract_route_codes dep.route_short_name) records ↔
        r ∈ records ∧
        (∃ m, recordMinutes r = some m ∧ ((m : ℤ) - (depMin : ℤ)).natAbs ≤ 3) ∧
        ∃ t, t ∈ extract_route_codes dep.route_short_name ∧
          t ∈ extract_route_codes (pyOr r.route_text r.route)) ∧
    (∀ r, routeCandidates depMin (extract_route_codes dep.route_short_name) records = [r] →
      match_departure_to_delay_records dep records =
        ⟨statusOf r, "medium", "route_code", some r⟩) ∧
    ((routeCandidates depMin (extract_route_codes dep.route_short_name) records).length ≠ 1 →
      match_departure_to_delay_records dep records = unknownMatch) := by
  have hemp : (extract_route_codes dep.route_short_name).isEmpty = false := by
    cases h : extract_route_codes dep.route_short_name with
    | nil => exact absurd h hcodes
    | cons x xs => rfl
  refine ⟨?_, ?_, ?_⟩
  · intro r
    rw [routeCandidates, List.mem_filter, Bool.and_eq_true, timeClose_iff, tokensIntersect_iff]
  · intro r hfil
    simp only [match_departure_to_delay_records, htime, hstrict, hemp, Bool.false_eq_true,
      if_false, hfil]
  · intro hlen
    simp only [match_departure_to_delay_records, htime, hstrict, hemp, Bool.false_eq_true,
      if_false]
    cases hfil : routeCandidates depMin (extract_route_codes dep.route_short_name) records with
    | nil => simp only [hfil]
    | cons x xs =>
      cases xs with
      | nil => rw [hfil] at hlen; simp at hlen
      | cons y ys => simp only [hfil]

/-- Witness for C4: target `P13` at 10:44; a lone candidate at 10:47
(3 minutes, inside the window) is `medium`/`route_code`, while a lone
candidate at 10:48 (4 minutes) leaves no survivor and is unknown. -/
theorem match_single_route_fallback_witness :
    match_departure_to_delay_records ⟨some "10:44:00", none, none, some "P13"⟩
        [⟨none, none, some "10:47", none, some "on_time", some "P13 Plzen - Radnice", none⟩] =
      ⟨"on_time", "medium", "route_code",
        some ⟨none, none, some "10:47", none, some "on_time", some "P13 Plzen - Radnice", none⟩⟩ ∧
    match_departure_to_delay_records ⟨some "10:44:00", none, none, some "P13"⟩
        [⟨none, none, some "10:48", none, some "on_time", some "P13 Plzen - Radnice", none⟩] =
      unknownMatch :=
  ⟨(match_single_route_fallback ⟨some "10:44:00", none, none, some "P13"⟩
      [⟨none, none, some "10:47", none, some "on_time", some "P13 Plzen - Radnice", none⟩]
      644 (by decide) (by decide) (by decide)).2.1
      ⟨none, none, some "10:47", none, some "on_time", some "P13 Plzen - Radnice", none⟩
      (by decide),
   (match_single_route_fallback ⟨some "10:44:00", none, none, some "P13"⟩
      [⟨none, none, some "10:48", none, some "on_time", some "P13 Plzen - Radnice", none⟩]
      644 (by decide) (by decide) (by decide)).2.2 (by decide)⟩

/-- C10: a target whose scheduled time is missing or unparseable is the
unknown decision for every candidate pool, before any candidate is
examined. -/
theorem match_single_no_time (dep : Departure) (records : List DelayRecord)
    (htime : hhmm_to_minutes dep.departure_time = none) :
    match_departure_to_delay_records dep records = unknownMatch := by
  simp only [match_departure_to_delay_records, htime]

/-- Witness for C10: a target with no departure time is unknown even
against a pool whose single candidate carries the exact train number and
category. -/
theorem match_single_no_time_witness :
    match_departure_to_delay_records ⟨none, some "Os", some 27324, some "Os 27324"⟩
        [⟨some 27324, some "Os", some "12:41", none, some "delayed",
          some "P13 Plzen - Radnice", none⟩] = unknownMatch :=
  match_single_no_time ⟨none, some "Os", some 27324, some "Os 27324"⟩
    [⟨some 27324, some "Os", some "12:41", none, some "delayed",
      some "P13 Plzen - Radnice", none⟩] (by decide)

/-! ### Route-code token extraction: the maximal-run characterization -/

/-- `head?` of `dropWhile` never satisfies the predicate. -/
theorem head_dropWhile_false (p : Char → Bool) (l : List Char) (q : Char)
    (h : (l.dropWhile p).head? = some q) : p q = false := by
  have h2 := List.head?_dropWhile_not p l
  rw [h] at h2
  simpa using h2

/-- `takeWhile` recovers a satisfying prefix exactly up to a failing
head. -/
theorem takeWhile_all_append (p : Char → Bool) (t post : List Char)
    (ht : ∀ c ∈ t, p c = true) (hpost : ∀ q, post.head? = some q → p q = false) :
    (t ++ post).takeWhile p = t := by
  induction t with
  | nil =>
    simp only [List.nil_append]
    cases post with
    | nil => rfl
    | cons q qs =>
      rw [List.takeWhile_cons, hpost q rfl]
      simp
  | cons a t2 ih =>
    rw [List.cons_append, List.takeWhile_cons, ht a (List.mem_cons_self a t2)]
    simp only [if_true]
    rw [ih (fun c hc => ht c (List.mem_cons_of_mem a hc))]

/-- `dropWhile` of a list whose last element fails the predicate stops
inside that list. -/
theorem dropWhile_append_last (p : Char → Bool) (pre : List Char) (x : List Char)
    (z : Char) (hz : pre.getLast? = some z) (hpz : p z = false) :
    (pre ++ x).dropWhile p = pre.dropWhile p ++ x ∧ pre.dropWhile p ≠ [] ∧
      (pre.dropWhile p).getLast? = pre.getLast? := by
  induction pre with
  | nil => cases hz
  | cons a rest ih =>
    cases rest with
    | nil =>
      have ha : a = z := by
        simpa using hz
      subst ha
      rw [List.cons_append, List.dropWhile_cons, hpz, List.dropWhile_cons, hpz]
      refine ⟨?_, ?_, ?_⟩ <;> simp
    | cons b rest2 =>
      have hz2 : (b :: rest2).getLast? = some z := by
        rwa [List.getLast?_cons_cons] at hz
      obtain ⟨ih1, ih2, ih3⟩ := ih hz2
      by_cases hpa : p a = true
      · rw [List.cons_append, List.dropWhile_cons, hpa, List.dropWhile_cons, hpa]
        simp only [if_true]
        refine ⟨ih1, ih2, ?_⟩
        rw [ih3, List.getLast?_cons_cons]
      · have hpa2 : p a = false := by
          cases h : p a
          · rfl
          · exact absurd h hpa
        rw [List.cons_append, List.dropWhile_cons, hpa2, List.dropWhile_cons, hpa2]
        refine ⟨?_, ?_, ?_⟩ <;> simp

/-- Unfolding of the run accumulator for a non-empty accumulator. -/
theorem runsAux_acc (l : List Char) : ∀ acc : List Char, acc ≠ [] →
    runsAux l acc = (acc.reverse ++ l.takeWhile isTokenChar) :: runs (l.dropWhile isTokenChar) := by
  induction l with
  | nil =>
    intro acc hacc
    rw [runsAux]
    have : acc.isEmpty = false := by
      cases acc with
      | nil => exact absurd rfl hacc
      | cons a r => rfl
    rw [this]
    simp [runs, runsAux]
  | cons c cs ih =>
    intro acc hacc
    rw [runsAux]
    by_cases hc : isTokenChar c = true
    · rw [if_pos hc, ih (c :: acc) (by simp), List.takeWhile_cons, hc, List.dropWhile_cons, hc]
      simp
    · have hc2 : isTokenChar c = false := by
        cases h : isTokenChar c
        · rfl
        · exact absurd h hc
      have hemp : acc.isEmpty = false := by
        cases acc with
        | nil => exact absurd rfl hacc
        | cons a r => rfl
      rw [hc2]
      simp only [Bool.false_eq_true, if_false, hemp]
      rw [List.takeWhile_cons, hc2, List.dropWhile_cons, hc2]
      simp only [Bool.false_eq_true, if_false, List.append_nil]
      have hr : runs (c :: cs) = runsAux cs [] := by
        conv_lhs => rw [runs, runsAux]
        rw [hc2]
        simp [runs]
      rw [hr]

/-- One-step unfolding of `runs`. -/
theorem runs_cons (c : Char) (cs : List Char) :
    runs (c :: cs) =
      if isTokenChar c = true then
        (c :: cs.takeWhile isTokenChar) :: runs (cs.dropWhile isTokenChar)
      else runs cs := by
  rw [runs, runsAux]
  by_cases hc : isTokenChar c = true
  · rw [if_pos hc, if_pos hc, runsAux_acc cs [c] (by simp)]
    simp
  · have hc2 : isTokenChar c = false := by
      cases h : isTokenChar c
      · rfl
      · exact absurd h hc
    rw [hc2]
    simp only [Bool.false_eq_true, if_false]
    rfl

/-- Membership in `runs`: exactly the non-empty all-token segments with
non-token (or absent) characters on both sides. -/
theorem mem_runs_iff (l t : List Char) :
    t ∈ runs l ↔
      (t ≠ [] ∧ (∀ c ∈ t, isTokenChar c = true) ∧
       ∃ pre post, l = pre ++ t ++ post ∧
         (∀ p, pre.getLast? = some p → isTokenChar p = false) ∧
         (∀ q, post.head? = some q → isTokenChar q = false)) := by
  cases l with
  | nil =>
    constructor
    · intro h
      simp [runs, runsAux] at h
    · rintro ⟨hne, -, pre, post, heq, -, -⟩
      have h3 := heq.symm
      simp only [List.append_eq_nil] at h3
      exact absurd h3.1.2 hne
  | cons c cs =>
    rw [runs_cons]
    by_cases hc : isTokenChar c = true
    · rw [if_pos hc]
      constructor
      · intro ht
        rcases List.mem_cons.mp ht with rfl | hmem
        · refine ⟨by simp, ?_, [], cs.dropWhile isTokenChar, ?_, ?_, ?_⟩
          · intro x hx
            rcases List.mem_cons.mp hx with rfl | hx2
            · exact hc
            · exact List.mem_takeWhile_imp hx2
          · rw [List.nil_append, List.cons_append, List.takeWhile_append_dropWhile]
          · intro p hp
            cases hp
          · intro q hq
            exact head_dropWhile_false isTokenChar cs q hq
        · have hrec := mem_runs_iff (cs.dropWhile isTokenChar) t
          obtain ⟨hne, htok, pre, post, heq, hpre, hpost⟩ := hrec.mp hmem
          have hpre_ne : pre ≠ [] := by
            intro h0
            subst h0
            rw [List.nil_append] at heq
            cases t with
            | nil => exact hne rfl
            | cons th t2 =>
              have : (cs.dropWhile isTokenChar).head? = some th := by
                rw [heq]
                rfl
              have h1 := head_dropWhile_false isTokenChar cs th this
              have h2 := htok th (List.mem_cons_self th t2)
              rw [h1] at h2
              cases h2
          refine ⟨hne, htok, c :: (cs.takeWhile isTokenChar ++ pre), post, ?_, ?_, hpost⟩
          · simp only [List.cons_append, List.append_assoc]
            conv_lhs => rw [show cs = cs.takeWhile isTokenChar ++ cs.dropWhile isTokenChar
                from (List.takeWhile_append_dropWhile isTokenChar cs).symm]
            rw [heq]
            simp [List.append_assoc]
          · intro p hp
            rw [show c :: (cs.takeWhile isTokenChar ++ pre) = (c :: cs.takeWhile isTokenChar) ++ pre
                by simp] at hp
            rw [List.getLast?_append_of_ne_nil _ hpre_ne] at hp
            exact hpre p hp
      · rintro ⟨hne, htok, pre, post, heq, hpre, hpost⟩
        cases pre with
        | nil =>
          rw [List.nil_append] at heq
          cases t with
          | nil => exact absurd rfl hne
          | cons th t2 =>
            rw [List.cons_append] at heq
            have hhead : c = th := (List.cons.injEq c cs th (t2 ++ post)).mp heq |>.1
            have htail : cs = t2 ++ post := (List.cons.injEq c cs th (t2 ++ post)).mp heq |>.2
            subst hhead
            have : cs.takeWhile isTokenChar = t2 := by
              rw [htail]
              exact takeWhile_all_append isTokenChar t2 post
                (fun x hx => htok x (List.mem_cons_of_mem c hx)) hpost
            rw [this]
            exact List.mem_cons_self _ _
        | cons ph pre2 =>
          rw [List.cons_append, List.cons_append] at heq
          have hhead : c = ph := (List.cons.injEq c cs ph (pre2 ++ t ++ post)).mp heq |>.1
          have htail : cs = pre2 ++ t ++ post :=
            (List.cons.injEq c cs ph (pre2 ++ t ++ post)).mp (by rw [heq, List.append_assoc]) |>.2
          subst hhead
          have hpre2_ne : pre2 ≠ [] := by
            intro h0
            subst h0
            have := hpre c rfl
            rw [this] at hc
            cases hc
          obtain ⟨z, hz⟩ : ∃ z, pre2.getLast? = some z := by
            cases h0 : pre2.getLast? with
            | none =>
              rw [List.getLast?_eq_none_iff] at h0
              exact absurd h0 hpre2_ne
            | some z => exact ⟨z, rfl⟩
          have hzp : isTokenChar z = false := by
            apply hpre
            rw [show (c :: pre2).getLast? = pre2.getLast? from ?_, hz]
            cases pre2 with
            | nil => exact absurd rfl hpre2_ne
            | cons b r => exact List.getLast?_cons_cons
          obtain ⟨hd1, hd2, hd3⟩ :=
            dropWhile_append_last isTokenChar pre2 (t ++ post) z hz hzp
          refine List.mem_cons_of_mem _ ((mem_runs_iff (cs.dropWhile isTokenChar) t).mpr ?_)
          refine ⟨hne, htok, pre2.dropWhile isTokenChar, post, ?_, ?_, hpost⟩
          · rw [htail, List.append_assoc, hd1, List.append_assoc]
          · intro p hp
            rw [hd3, hz] at hp
            cases hp
            exact hzp
    · rw [if_neg hc]
      have hc2 : isTokenChar c = false := by
        cases h : isTokenChar c
        · rfl
        · exact absurd h hc
      rw [mem_runs_iff cs t]
      constructor
      · rintro ⟨hne, htok, pre, post, heq, hpre, hpost⟩
        refine ⟨hne, htok, c :: pre, post, by rw [heq]; simp, ?_, hpost⟩
        intro p hp
        cases pre with
        | nil =>
          have hcp : c = p := by
            simpa using hp
          rw [← hcp]
          exact hc2
        | cons b r =>
          rw [List.getLast?_cons_cons] at hp
          exact hpre p hp
      · rintro ⟨hne, htok, pre, post, heq, hpre, hpost⟩
        cases pre with
        | nil =>
          rw [List.nil_append] at heq
          cases t with
          | nil => exact absurd rfl hne
          | cons th t2 =>
            have hhead : c = th := (List.cons.injEq c cs th (t2 ++ post)).mp heq |>.1
            have h2 := htok th (List.mem_cons_self th t2)
            rw [← hhead, hc2] at h2
            cases h2
        | cons ph pre2 =>
          rw [List.cons_append, List.cons_append] at heq
          have hhead : c = ph := (List.cons.injEq c cs ph (pre2 ++ t ++ post)).mp heq |>.1
          have htail : cs = pre2 ++ t ++ post :=
            (List.cons.injEq c cs ph (pre2 ++ t ++ post)).mp (by rw [heq, List.append_assoc]) |>.2
          refine ⟨hne, htok, pre2, post, by rw [htail], ?_, hpost⟩
          intro p hp
          apply hpre
          cases pre2 with
          | nil => cases hp
          | cons b r =>
            rw [List.getLast?_cons_cons]
            exact hp
termination_by l.length
decreasing_by
  all_goals simp only [List.length_cons]
  all_goals first
    | exact Nat.lt_succ_of_le (List.dropWhile_sublist _).length_le
    | omega

/-- Truth of the route-code token test, componentwise. -/
theorem is_route_code_token_iff (t : List Char) :
    is_route_code_token t = true ↔
      (2 ≤ t.length ∧ t.length ≤ 8 ∧ (∀ c ∈ t, isTokenChar c = true) ∧
       (∃ c ∈ t, c.isAlpha = true) ∧ ∃ c ∈ t, c.isDigit = true) := by
  rw [is_route_code_token]
  simp [List.all_eq_true, List.any_eq_true, and_assoc]

/-- C5: route-code extraction returns exactly the maximal runs of
`[a-z0-9]` characters of the normalized label (diacritics stripped,
lower-cased, split at every non-alphanumeric character) that are 2–8
characters long and contain at least one letter and at least one digit;
tokens are whole runs, never substrings: `"XP20"` yields the single
token `xp20`, and a target `"P2"` does not match a candidate labelled
`"XP20 ..."` (the matcher returns the unknown decision). -/
theorem extract_route_codes_spec :
    (∀ (v : Option String) (t : List Char),
      t ∈ extract_route_codes v ↔
        (t ≠ [] ∧ (∀ c ∈ t, isTokenChar c = true) ∧
         (∃ pre post, (normalize_for_matching v).toList = pre ++ t ++ post ∧
           (∀ p, pre.getLast? = some p → isTokenChar p = false) ∧
           (∀ q, post.head? = some q → isTokenChar q = false)) ∧
         2 ≤ t.length ∧ t.length ≤ 8 ∧
         (∃ c ∈ t, c.isAlpha = true) ∧ (∃ c ∈ t, c.isDigit = true))) ∧
    extract_route_codes (some "XP20") = [['x', 'p', '2', '0']] ∧
    match_departure_to_delay_records ⟨some "10:44:00", none, none, some "P2"⟩
        [⟨none, none, some "10:44", none, some "on_time", some "XP20 Plzen - Klatovy", none⟩] =
      unknownMatch := by
  refine ⟨?_, by decide, by decide⟩
  intro v t
  rw [extract_route_codes, List.mem_filter, mem_runs_iff, is_route_code_token_iff]
  constructor
  · rintro ⟨⟨hne, htok, hdecomp⟩, hlen1, hlen2, -, halpha, hdigit⟩
    exact ⟨hne, htok, hdecomp, hlen1, hlen2, halpha, hdigit⟩
  · rintro ⟨hne, htok, hdecomp, hlen1, hlen2, halpha, hdigit⟩
    exact ⟨⟨hne, htok, hdecomp⟩, hlen1, hlen2, htok, halpha, hdigit⟩

/-! ### The service-calendar engine -/

/-- Membership in the date-building fold of `Calendar.__init__`. -/
theorem foldl_insert_mem (start d : ℕ) (l : List (ℕ × Char)) (s : Finset ℕ) :
    (d ∈ l.foldl (fun s p => if p.2 = '1' then insert (start + p.1) s else s) s) ↔
      (d ∈ s ∨ ∃ p ∈ l, p.2 = '1' ∧ d = start + p.1) := by
  induction l generalizing s with
  | nil => simp
  | cons a l ih =>
    rw [List.foldl_cons, ih]
    by_cases ha : a.2 = '1'
    · rw [if_pos ha]
      simp only [Finset.mem_insert, List.mem_cons]
      constructor
      · rintro ((rfl | hs) | ⟨p, hp, h1, h2⟩)
        · exact Or.inr ⟨a, Or.inl rfl, ha, rfl⟩
        · exact Or.inl hs
        · exact Or.inr ⟨p, Or.inr hp, h1, h2⟩
      · rintro (hs | ⟨p, (rfl | hp), h1, h2⟩)
        · exact Or.inl (Or.inr hs)
        · exact Or.inl (Or.inl h2)
        · exact Or.inr ⟨p, hp, h1, h2⟩
    · rw [if_neg ha]
      simp only [List.mem_cons]
      constructor
      · rintro (hs | ⟨p, hp, h1, h2⟩)
        · exact Or.inl hs
        · exact Or.inr ⟨p, Or.inr hp, h1, h2⟩
      · rintro (hs | ⟨p, (rfl | hp), h1, h2⟩)
        · exact Or.inl hs
        · exact absurd h1 ha
        · exact Or.inr ⟨p, hp, h1, h2⟩

/-- The active dates built from a bitmap are exactly the `'1'` offsets. -/
theorem bitmapDates_mem (bitmap : List Char) (start d : ℕ) :
    d ∈ bitmapDates bitmap start ↔
      ∃ i, i < bitmap.length ∧ bitmap[i]? = some '1' ∧ d = start + i := by
  rw [bitmapDates, foldl_insert_mem]
  simp only [Finset.not_mem_empty, false_or]
  constructor
  · rintro ⟨p, hp, h1, h2⟩
    rw [List.mem_enum_iff_getElem?] at hp
    refine ⟨p.1, ?_, ?_, h2⟩
    · exact (List.getElem?_eq_some.mp hp).1
    · rw [hp, h1]
  · rintro ⟨i, hi, hget, hd⟩
    refine ⟨(i, '1'), ?_, rfl, hd⟩
    rw [List.mem_enum_iff_getElem?]
    exact hget

/-- A successful construction yields exactly the record the source
builds (and the bitmap was non-empty). -/
theorem mkCalendar_ok (bitmap : List Char) (start : ℕ) (endOpt : Option ℕ)
    (cal : Calendar) (h : mkCalendar bitmap start endOpt = .ok cal) :
    cal = ⟨start, start + (bitmap.length - 1), bitmapDates bitmap start, bitmap⟩ ∧
      bitmap ≠ [] := by
  cases endOpt with
  | none =>
    simp only [mkCalendar] at h
    split_ifs at h with h1 h2
    all_goals try cases h
    all_goals exact ⟨rfl, h1⟩
  | some e =>
    simp only [mkCalendar] at h
    split_ifs at h with h1 h2 h3
    all_goals try cases h
    all_goals exact ⟨rfl, h1⟩

/-- C6: for every successfully built calendar, the active-date set is
exactly `{start + i | bitmap[i] = '1'}` and in particular a subset of
the inclusive range `[start, start + (n - 1)]`. -/
theorem mkCalendar_dates (bitmap : List Char) (start : ℕ) (endOpt : Option ℕ)
    (cal : Calendar) (h : mkCalendar bitmap start endOpt = .ok cal) :
    (∀ d, d ∈ cal.dates ↔
      ∃ i, i < bitmap.length ∧ bitmap[i]? = some '1' ∧ d = start + i) ∧
    cal.dates ⊆ Finset.Icc start (start + (bitmap.length - 1)) := by
  obtain ⟨rfl, hne⟩ := mkCalendar_ok bitmap start endOpt cal h
  constructor
  · intro d
    exact bitmapDates_mem bitmap start d
  · intro d hd
    obtain ⟨i, hi, -, rfl⟩ := (bitmapDates_mem bitmap start d).mp hd
    rw [Finset.mem_Icc]
    have : 1 ≤ bitmap.length := by
      cases bitmap with
      | nil => exact absurd rfl hne
      | cons a l => simp
    omega

/-- Witness for C6: bitmap `"101"` starting at day 10 activates exactly
days 10 and 12, inside `[10, 12]`. -/
theorem mkCalendar_dates_witness :
    (10 ∈ (⟨10, 12, bitmapDates "101".toList 10, "101".toList⟩ : Calendar).dates ↔
      ∃ i, i < "101".toList.length ∧ "101".toList[i]? = some '1' ∧ 10 = 10 + i) ∧
    (⟨10, 12, bitmapDates "101".toList 10, "101".toList⟩ : Calendar).dates ⊆
      Finset.Icc 10 12 :=
  ⟨(mkCalendar_dates "101".toList 10 (some 12) _ rfl).1 10,
   (mkCalendar_dates "101".toList 10 (some 12) _ rfl).2⟩

/-- Interval membership for a calendar whose bounds are ordered. -/
theorem interval_mem (cal : Calendar) (hse : cal.start ≤ cal.endDate) (d : ℕ) :
    d ∈ cal.interval ↔ cal.start ≤ d ∧ d ≤ cal.endDate := by
  rw [Calendar.interval]
  simp only [List.mem_map, List.mem_range]
  constructor
  · rintro ⟨i, hi, rfl⟩
    omega
  · rintro ⟨h1, h2⟩
    exact ⟨d - cal.start, by omega, by omega⟩

/-- The service interval is strictly ascending. -/
theorem interval_pairwise (cal : Calendar) : cal.interval.Pairwise (· < ·) := by
  rw [Calendar.interval]
  refine List.pairwise_map.mpr ?_
  exact (List.pairwise_lt_range _).imp (fun h => by omega)

/-- A `filterMap` whose function keeps the element with a tag is the
filter followed by the tagging map. -/
theorem filterMap_if_shape (l : List ℕ) (p : ℕ → Prop) [DecidablePred p] (f : ℕ → ℕ) :
    (l.filterMap fun d => if p d then some (d, f d) else none) =
      (l.filter (fun d => decide (p d))).map (fun d => (d, f d)) := by
  induction l with
  | nil => rfl
  | cons a t ih =>
    rw [List.filterMap_cons, List.filter_cons]
    by_cases hp : p a
    · simp [hp, ih]
    · simp [hp, ih]

/-- Membership in the exception list. -/
theorem exceptions_mem (cal : Calendar) (R : Finset ℕ) (d k : ℕ) :
    (d, k) ∈ cal.exceptions R ↔
      (d ∈ cal.interval ∧ ((d ∈ cal.dates) ≠ (weekday d ∈ R)) ∧
       k = if d ∈ cal.dates then EXC_ADD else EXC_REMOVE) := by
  rw [Calendar.exceptions, List.mem_filterMap]
  constructor
  · rintro ⟨a, ha, hfa⟩
    by_cases hp : (a ∈ cal.dates) ≠ (weekday a ∈ R)
    · rw [if_pos hp] at hfa
      have h2 := Option.some.inj hfa
      rw [Prod.mk.injEq] at h2
      obtain ⟨h21, h22⟩ := h2
      subst h21
      exact ⟨ha, hp, h22.symm⟩
    · rw [if_neg hp] at hfa
      cases hfa
  · rintro ⟨hd, hne, hk⟩
    refine ⟨d, hd, ?_⟩
    rw [if_pos hne, hk]

/-- The exception list is strictly ascending in its dates. -/
theorem exceptions_pairwise (cal : Calendar) (R : Finset ℕ) :
    (cal.exceptions R).Pairwise (fun a b => a.1 < b.1) := by
  rw [Calendar.exceptions,
    filterMap_if_shape cal.interval (fun d => (d ∈ cal.dates) ≠ (weekday d ∈ R))
      (fun d => if d ∈ cal.dates then EXC_ADD else EXC_REMOVE)]
  refine List.pairwise_map.mpr ?_
  exact (interval_pairwise cal).filter _

/-- A date appears among the exception dates iff it is in the window and
its activity disagrees with the pattern. -/
theorem mem_exceptions_fst (cal : Calendar) (R : Finset ℕ) (d : ℕ) :
    d ∈ (cal.exceptions R).map Prod.fst ↔
      (d ∈ cal.interval ∧ ((d ∈ cal.dates) ≠ (weekday d ∈ R))) := by
  rw [List.mem_map]
  constructor
  · rintro ⟨x, hx, rfl⟩
    obtain ⟨h1, h2, -⟩ := (exceptions_mem cal R x.1 x.2).mp hx
    exact ⟨h1, h2⟩
  · rintro ⟨h1, h2⟩
    exact ⟨(d, if d ∈ cal.dates then EXC_ADD else EXC_REMOVE),
      (exceptions_mem cal R d _).mpr ⟨h1, h2, rfl⟩, rfl⟩

/-- C7: for every successfully built calendar and every regular weekday
set `R`, the exception list is strictly ascending (hence each date
appears at most once), `ADDED` entries are exactly the active dates
listed and `REMOVED` entries the inactive ones, and replaying the
weekly pattern then flipping exactly the listed dates reproduces the
active-date set. -/
theorem calendar_exceptions_roundtrip (bitmap : List Char) (start : ℕ)
    (endOpt : Option ℕ) (cal : Calendar)
    (h : mkCalendar bitmap start endOpt = .ok cal) (R : Finset ℕ) :
    (cal.exceptions R).Pairwise (fun a b => a.1 < b.1) ∧
    (∀ d k, (d, k) ∈ cal.exceptions R →
      (k = EXC_ADD ∧ d ∈ cal.dates) ∨ (k = EXC_REMOVE ∧ d ∉ cal.dates)) ∧
    (∀ d, d ∈ cal.dates ↔
      (d ∈ Finset.Icc cal.start cal.endDate ∧
       ((weekday d ∈ R) ↔ d ∉ (cal.exceptions R).map Prod.fst))) := by
  obtain ⟨hcal, hne⟩ := mkCalendar_ok bitmap start endOpt cal h
  have hlen : 1 ≤ bitmap.length := by
    cases bitmap with
    | nil => exact absurd rfl hne
    | cons a l => simp
  subst hcal
  have hse : (⟨start, start + (bitmap.length - 1), bitmapDates bitmap start, bitmap⟩ :
      Calendar).start ≤ (⟨start, start + (bitmap.length - 1), bitmapDates bitmap start,
      bitmap⟩ : Calendar).endDate := Nat.le_add_right start (bitmap.length - 1)
  refine ⟨exceptions_pairwise _ R, ?_, ?_⟩
  · intro d k hmem
    obtain ⟨-, -, hk⟩ := (exceptions_mem _ R d k).mp hmem
    by_cases hda : d ∈ bitmapDates bitmap start
    · exact Or.inl ⟨by rw [hk, if_pos hda], hda⟩
    · exact Or.inr ⟨by rw [hk, if_neg hda], hda⟩
  · intro d
    constructor
    · intro hda
      have hbounds : start ≤ d ∧ d ≤ start + (bitmap.length - 1) := by
        obtain ⟨i, hi, -, rfl⟩ := (bitmapDates_mem bitmap start d).mp hda
        omega
      have hint : d ∈ (⟨start, start + (bitmap.length - 1), bitmapDates bitmap start,
          bitmap⟩ : Calendar).interval := (interval_mem _ hse d).mpr hbounds
      refine ⟨Finset.mem_Icc.mpr hbounds, ?_⟩
      rw [mem_exceptions_fst]
      simp [hint, hda]
    · rintro ⟨hicc, hiff⟩
      by_contra hda
      have hint : d ∈ (⟨start, start + (bitmap.length - 1), bitmapDates bitmap start,
          bitmap⟩ : Calendar).interval := (interval_mem _ hse d).mpr (Finset.mem_Icc.mp hicc)
      rw [mem_exceptions_fst] at hiff
      simp [hint, hda] at hiff

/-- Witness for C7: the calendar of bitmap `"1010100"` starting at
day 10, replayed against the empty weekday pattern. -/
theorem calendar_exceptions_roundtrip_witness :
    (((⟨10, 16, bitmapDates "1010100".toList 10, "1010100".toList⟩ : Calendar).exceptions
        ∅).Pairwise (fun a b => a.1 < b.1)) ∧
    (10 ∈ (⟨10, 16, bitmapDates "1010100".toList 10, "1010100".toList⟩ : Calendar).dates ↔
      (10 ∈ Finset.Icc 10 16 ∧
       ((weekday 10 ∈ (∅ : Finset ℕ)) ↔
        10 ∉ (((⟨10, 16, bitmapDates "1010100".toList 10, "1010100".toList⟩ :
          Calendar).exceptions ∅)).map Prod.fst))) :=
  ⟨(calendar_exceptions_roundtrip "1010100".toList 10 (some 16) _ rfl ∅).1,
   (calendar_exceptions_roundtrip "1010100".toList 10 (some 16) _ rfl ∅).2.2 10⟩

/-! ### The calendar registry -/

/-- Registry well-formedness: every stored instance is keyed by its own
active-date set. -/
def RegistryWF (reg : Registry) : Prop :=
  ∀ k rc, lookupReg reg.table k = some rc → rc.cal.dates = k

/-- The empty registry is well-formed. -/
theorem registryWF_empty : RegistryWF emptyRegistry := by
  intro k rc h
  cases h

/-- One `load_calendar` step preserves well-formedness. -/
theorem registryWF_step (inp : CalInput) (reg : Registry) (h : RegistryWF reg) :
    RegistryWF (load_calendar inp reg).2 := by
  cases hmk : mkCalendar inp.bitmap inp.start inp.endOpt with
  | error e => simpa only [load_calendar, hmk] using h
  | ok cal =>
    cases hlook : lookupReg reg.table cal.dates with
    | some rc => simpa only [load_calendar, hmk, hlook] using h
    | none =>
      simp only [load_calendar, hmk, hlook]
      intro k rc hk
      rw [lookupReg] at hk
      by_cases hkey : cal.dates = k
      · rw [if_pos hkey] at hk
        rw [← (Option.some.inj hk)]
        exact hkey
      · rw [if_neg hkey] at hk
        exact h k rc hk

/-- Entries already present in the registry survive a whole run
unchanged. -/
theorem lookup_persists (inps : List CalInput) (reg : Registry) (k : Finset ℕ)
    (v : RegCal) (h : lookupReg reg.table k = some v) :
    lookupReg (runCalendars inps reg).2.table k = some v := by
  induction inps generalizing reg with
  | nil => exact h
  | cons i rest ih =>
    rw [runCalendars]
    refine ih (load_calendar i reg).2 ?_
    cases hmk : mkCalendar i.bitmap i.start i.endOpt with
    | error e => simpa only [load_calendar, hmk] using h
    | ok cal =>
      cases hlook : lookupReg reg.table cal.dates with
      | some rc => simpa only [load_calendar, hmk, hlook] using h
      | none =>
        simp only [load_calendar, hmk, hlook]
        rw [lookupReg]
        by_cases hkey : cal.dates = k
        · rw [← hkey] at h
          rw [h] at hlook
          cases hlook
        · rw [if_neg hkey]
          exact h

/-- Every instance a run hands out is stored in the final registry under
its own active-date set. -/
theorem out_in_table (inps : List CalInput) (reg : Registry) (n : ℕ) (o : RegCal)
    (hwf : RegistryWF reg)
    (h : (runCalendars inps reg).1.get? n = some (some o)) :
    lookupReg (runCalendars inps reg).2.table o.cal.dates = some o := by
  induction inps generalizing reg n with
  | nil => cases h
  | cons i rest ih =>
    rw [runCalendars] at h ⊢
    cases n with
    | succ n2 =>
      exact ih (load_calendar i reg).2 n2 (registryWF_step i reg hwf) h
    | zero =>
      have hstep : (load_calendar i reg).1 = some o := Option.some.inj h
      refine lookup_persists rest (load_calendar i reg).2 o.cal.dates o ?_
      cases hmk : mkCalendar i.bitmap i.start i.endOpt with
      | error e =>
        rw [load_calendar, hmk] at hstep
        cases hstep
      | ok cal =>
        cases hlook : lookupReg reg.table cal.dates with
        | some rc =>
          simp only [load_calendar, hmk, hlook] at hstep ⊢
          have ho : rc = o := Option.some.inj hstep
          have hdates : rc.cal.dates = cal.dates := hwf cal.dates rc hlook
          rw [← ho, hdates]
          exact hlook
        | none =>
          simp only [load_calendar, hmk, hlook] at hstep ⊢
          have ho : (⟨cal, reg.nextId⟩ : RegCal) = o := Option.some.inj hstep
          rw [← ho]
          rw [lookupReg, if_pos rfl]

/-- C8: within one run threaded through a single registry, any two
constructions whose active-date sets are equal return the same
registered instance (the first one registered). -/
theorem registry_dedup (inps : List CalInput) (i j : ℕ) (o1 o2 : RegCal)
    (h1 : (runCalendars inps emptyRegistry).1.get? i = some (some o1))
    (h2 : (runCalendars inps emptyRegistry).1.get? j = some (some o2))
    (hdates : o1.cal.dates = o2.cal.dates) : o1 = o2 := by
  have t1 := out_in_table inps emptyRegistry i o1 registryWF_empty h1
  have t2 := out_in_table inps emptyRegistry j o2 registryWF_empty h2
  rw [hdates] at t1
  rw [t1] at t2
  exact Option.some.inj t2

/-- Witness for C8: bitmaps `"101"` (days 10, 12) and `"1010"` starting
the same day produce the same active-date set; the second construction
returns the instance registered by the first (instance id 0, bitmap
`"101"`). -/
theorem registry_dedup_witness :
    (runCalendars [⟨"101".toList, 10, some 12⟩, ⟨"1010".toList, 10, some 13⟩]
        emptyRegistry).1.get? 1 =
      some (some ⟨⟨10, 12, bitmapDates "101".toList 10, "101".toList⟩, 0⟩) ∧
    (⟨⟨10, 12, bitmapDates "101".toList 10, "101".toList⟩, 0⟩ : RegCal) =
      ⟨⟨10, 12, bitmapDates "101".toList 10, "101".toList⟩, 0⟩ :=
  ⟨by decide,
   registry_dedup [⟨"101".toList, 10, some 12⟩, ⟨"1010".toList, 10, some 13⟩] 0 1
     ⟨⟨10, 12, bitmapDates "101".toList 10, "101".toList⟩, 0⟩
     ⟨⟨10, 12, bitmapDates "101".toList 10, "101".toList⟩, 0⟩
     (by decide) (by decide) rfl⟩

/-- Counterexample to C9 as stated: the bitmap `"1x"` contains the
character `'x'`, which is neither `'0'` nor `'1'`, yet construction
succeeds and returns a calendar (no error of any kind is raised). -/
theorem mkCalendar_no_bitmap_validation :
    ('x' ∈ "1x".toList ∧ 'x' ≠ '0' ∧ 'x' ≠ '1') ∧
    (mkCalendar "1x".toList 0 (some 1)).isOk = true ∧
    mkCalendar "1x".toList 0 (some 1) =
      .ok ⟨0, 1, bitmapDates "1x".toList 0, "1x".toList⟩ := by
  refine ⟨by decide, by decide, rfl⟩

/-- C9 (amended): calendar construction performs no bitmap-character
validation; every character other than `'1'` — including characters
outside `{'0', '1'}` — is silently treated as an inactive day, and
construction succeeds whenever the end date is consistent. -/
theorem mkCalendar_invalid_chars_ignored (bitmap : List Char) (start e : ℕ)
    (hbad : ∃ c ∈ bitmap, c ≠ '0' ∧ c ≠ '1')
    (hend : e = start + (bitmap.length - 1)) :
    ∃ cal, mkCalendar bitmap start (some e) = .ok cal ∧
      ∀ d, d ∈ cal.dates ↔
        ∃ i, i < bitmap.length ∧ bitmap[i]? = some '1' ∧ d = start + i := by
  obtain ⟨c, hc, hc0, hc1⟩ := hbad
  have hne : bitmap ≠ [] := by
    rintro rfl
    cases hc
  have hnot1 : bitmap ≠ ['1'] := by
    rintro rfl
    rcases List.mem_singleton.mp hc with rfl
    exact hc1 rfl
  refine ⟨⟨start, start + (bitmap.length - 1), bitmapDates bitmap start, bitmap⟩, ?_, ?_⟩
  · rw [mkCalendar, if_neg hne, if_neg hnot1, hend]
    simp
  · intro d
    exact bitmapDates_mem bitmap start d

/-- Witness for C9 (amended): the bitmap `"1x"` builds successfully and
activates only day 0 (offset of its `'1'`). -/
theorem mkCalendar_invalid_chars_ignored_witness :
    ∃ cal, mkCalendar "1x".toList 0 (some 1) = .ok cal ∧
      ∀ d, d ∈ cal.dates ↔
        ∃ i, i < "1x".toList.length ∧ "1x".toList[i]? = some '1' ∧ d = 0 + i :=
  mkCalendar_invalid_chars_ignored "1x".toList 0 1
    ⟨'x', by decide, by decide, by decide⟩ (by decide)

end Vlak
